import Mathlib

/-!
Verification of the chunked parallel download/transcription pipeline
(`scripts/parallel_processor.py`).

The Python source is shallowly embedded here:
* float timestamps and durations become `ℚ`;
* Python strings become `List Char` (`PyStr`), with Python's truthiness
  (`if s:`) rendered as `s ≠ []` and `str.strip` rendered as `pyStrip`;
* the mutable chunk list sorted in place by `merge_chunks` is made explicit
  by returning the post-call state of the caller's list alongside the result;
* external effects (the whisper model, the database, the filesystem, the
  network and the random jitter) are passed in as explicit values or oracles.

Python's stable `list.sort(key=...)` is modelled by `List.insertionSort`
with the corresponding non-strict key order, which is likewise stable.

The `while current_start < duration` planning loop of
`split_audio_with_silence_detection` is embedded with explicit fuel
(`split_loop`); `split_audio_with_silence_detection` runs it with a fuel
bound that is proved sufficient whenever the chunk length is positive, so
`none` only arises on inputs where the Python loop itself diverges.
-/

/-- A Python string, modelled as its list of characters. -/
abbrev PyStr := List Char

/-- Characters stripped by Python's `str.strip()` (ASCII whitespace). -/
def pyIsSpace (c : Char) : Bool :=
  c = ' ' || c = '\t' || c = '\n' || c = '\r' || c = '\x0b' || c = '\x0c'

/-- Python `s.strip()`: drop leading and trailing whitespace. -/
def pyStrip (s : PyStr) : PyStr :=
  ((s.dropWhile pyIsSpace).reverse.dropWhile pyIsSpace).reverse

/-- Python `sep.join(parts)`. -/
def pyJoin (sep : PyStr) (parts : List PyStr) : PyStr :=
  List.intercalate sep parts

/-- Shorthand turning a Lean string literal into a `PyStr`. -/
def str (s : String) : PyStr := s.data

/-- One entry of the `silence_periods` list built by
`split_audio_with_silence_detection`: a dict that always has a `'start'`
key and may or may not have an `'end'` key. -/
structure Period where
  start : ℚ
  /-- The `'end'` key of the dict, absent (`none`) while unterminated. -/
  endTime : Option ℚ
deriving DecidableEq

/-- A chunk descriptor as appended to `chunks` by
`split_audio_with_silence_detection` (the file path is determined by
`index`, so it is not repeated here). -/
structure Chunk where
  start : ℚ
  duration : ℚ
  index : ℕ
deriving DecidableEq

/-- One diagnostic line of the silence-detector output, abstracted to the
three cases the parser in `split_audio_with_silence_detection`
distinguishes: a `silence_start:` line carrying a time, a `silence_end:`
line carrying a time, or anything else. -/
inductive DiagLine where
  | silenceStart (t : ℚ)
  | silenceEnd (t : ℚ)
  | other
deriving DecidableEq

/-- One step of the parsing loop over `result.stderr.split('\n')`:
a start line appends `{'start': t}`; an end line sets `['end']` on the
last period provided the list is nonempty and the last period has no
`'end'` yet; other lines are ignored. -/
def parse_step (acc : List Period) (l : DiagLine) : List Period :=
  match l with
  | .silenceStart t => acc ++ [⟨t, none⟩]
  | .silenceEnd t =>
    match acc.getLast? with
    | some p => if p.endTime = none then acc.dropLast ++ [⟨p.start, some t⟩] else acc
    | none => acc
  | .other => acc

/-- The `silence_periods` list parsed from the detector's diagnostic lines. -/
def parse_silence (ls : List DiagLine) : List Period :=
  ls.foldl parse_step []

/-- The body of the `for silence in silence_periods` search: keep the
accumulator `(best_split, min_distance)` unless this period has an `'end'`
in `(current_start, target_end + 5]` strictly closer to `target_end`.
`min_distance` starts as `float('inf')`, modelled as `none`. -/
def better_split (current_start target_end : ℚ) (acc : ℚ × Option ℚ) (p : Period) :
    ℚ × Option ℚ :=
  match p.endTime with
  | none => acc
  | some e =>
    if current_start < e ∧ e ≤ target_end + 5 then
      let d := |e - target_end|
      match acc.2 with
      | none => (e, some d)
      | some m => if d < m then (e, some d) else acc
    else acc

/-- The split point chosen for one iteration: `target_end` unless some
silence period's recorded end lies in the lookahead window, in which case
the window end closest to `target_end` (first wins on ties). -/
def best_split (periods : List Period) (current_start target_end : ℚ) : ℚ :=
  (periods.foldl (better_split current_start target_end) (target_end, none)).1

/-- The `while current_start < duration` loop of
`split_audio_with_silence_detection`, with explicit fuel: each recursive
call consumes one unit, and exhausting the fuel while the loop would still
run yields `none`.  `chunk_num` only advances when a chunk is emitted, and
spans of length `≤ 0.5` are skipped without emitting. -/
def split_loop (periods : List Period) (duration chunk_len : ℚ) :
    ℕ → ℚ → ℕ → List Chunk → Option (List Chunk)
  | fuel, current_start, chunk_num, acc =>
    if current_start < duration then
      match fuel with
      | 0 => none
      | fuel + 1 =>
        let target_end := min (current_start + chunk_len) duration
        let b := best_split periods current_start target_end
        let d := b - current_start
        if 1/2 < d then
          split_loop periods duration chunk_len fuel b (chunk_num + 1)
            (acc ++ [⟨current_start, d, chunk_num⟩])
        else
          split_loop periods duration chunk_len fuel b chunk_num acc
    else some acc

/-- Fuel sufficient for the loop whenever `0 < chunk_len` (proved below):
one unit per recorded silence end plus one per full chunk length in the
duration, plus one.  It is unaffected by periods lacking an `'end'`. -/
def split_fuel (duration chunk_len : ℚ) (periods : List Period) : ℕ :=
  periods.countP (fun p => p.endTime.isSome) + (Int.ceil (duration / chunk_len)).toNat + 1

/-- The chunk-planning part of `split_audio_with_silence_detection`:
parse the silence periods is done by `parse_silence`; this function takes
the parsed periods together with the probed duration and the configured
chunk length, and runs the planning loop from `current_start = 0`. -/
def split_audio_plan (duration chunk_len : ℚ) (periods : List Period) :
    Option (List Chunk) :=
  split_loop periods duration chunk_len (split_fuel duration chunk_len periods) 0 0 []

/-- `split_audio_with_silence_detection` with the probed duration and the
detector's diagnostic lines as inputs: parse the silence periods, then plan. -/
def split_audio_with_silence_detection (duration chunk_len : ℚ)
    (diag : List DiagLine) : Option (List Chunk) :=
  split_audio_plan duration chunk_len (parse_silence diag)

/-- `e` is the `'end'` of some recorded silence period and falls in the
lookahead window `(current_start, target_end + 5]`, i.e. it is a candidate
split point in one iteration of the planning loop. -/
def eligible_end (periods : List Period) (current_start target_end e : ℚ) : Prop :=
  ∃ p ∈ periods, p.endTime = some e ∧ current_start < e ∧ e ≤ target_end + 5

/-- Number of recorded silence ends strictly after `s`; the first half of
the termination measure of the planning loop. -/
def ends_after (periods : List Period) (s : ℚ) : ℕ :=
  periods.countP (fun p =>
    match p.endTime with
    | some e => decide (s < e)
    | none => false)

/-- Termination measure of the planning loop at current start `s`. -/
def split_measure (duration chunk_len : ℚ) (periods : List Period) (s : ℚ) : ℕ :=
  ends_after periods s + (Int.ceil ((duration - s) / chunk_len)).toNat

/-- The chunks of `l` are contiguous starting at `a`: the first chunk
starts at `a` and each later chunk starts exactly where the previous one
ends (no gap, no overlap). -/
def chain_from : ℚ → List Chunk → Prop
  | _, [] => True
  | a, c :: rest => c.start = a ∧ chain_from (c.start + c.duration) rest

/-- End of the last chunk span of `l`, or `a` if `l` is empty. -/
def last_end : ℚ → List Chunk → ℚ
  | a, [] => a
  | _, c :: rest => last_end (c.start + c.duration) rest

/-- A transcript segment: absolute start/end times and text.  The field
`stop` is the dict key `'end'` (a reserved word in Lean). -/
structure Segment where
  start : ℚ
  stop : ℚ
  text : PyStr
deriving DecidableEq

/-- One element of the `chunk_results` list consumed by `merge_chunks`, as
returned by `transcribe_chunk_worker`. -/
structure ChunkResult where
  text : PyStr
  segments : List Segment
  chunk_index : ℕ
deriving DecidableEq

/-- The dict returned by `merge_chunks`. -/
structure TranscriptResult where
  text : PyStr
  segments : List Segment
deriving DecidableEq

/-- The key order used by `chunk_results.sort(key=lambda x: x['chunk_index'])`. -/
def idx_le (a b : ChunkResult) : Prop := a.chunk_index ≤ b.chunk_index

/-- Strict version of `idx_le`, used to show sorted lists with distinct
indices are unique. -/
def idx_lt (a b : ChunkResult) : Prop := a.chunk_index < b.chunk_index

/-- The key order used by `all_segments.sort(key=lambda x: x['start'])`. -/
def start_le (a b : Segment) : Prop := a.start ≤ b.start

instance : DecidableRel idx_le := fun a b => Nat.decLe _ _

instance : DecidableRel start_le := fun a b =>
  inferInstanceAs (Decidable (a.start ≤ b.start))

instance : IsTotal ChunkResult idx_le := ⟨fun _ _ => Nat.le_total _ _⟩

instance : IsTrans ChunkResult idx_le := ⟨fun _ _ _ => Nat.le_trans⟩

instance : IsAntisymm ChunkResult idx_lt :=
  ⟨fun _ _ h1 h2 => absurd (lt_trans h1 h2) (lt_irrefl _)⟩

instance : IsTotal Segment start_le := ⟨fun _ _ => le_total _ _⟩

instance : IsTrans Segment start_le := ⟨fun _ _ _ h1 h2 => le_trans h1 h2⟩

/-- Python's `list.sort` is stable; it is modelled by insertion sort with
the non-strict key order, which is likewise stable. -/
def sort_by_index (l : List ChunkResult) : List ChunkResult :=
  List.insertionSort idx_le l

/-- Stable sort of segments by start time. -/
def sort_by_start (l : List Segment) : List Segment :=
  List.insertionSort start_le l

/-- `merge_chunks`.  The Python function first sorts the caller's list in
place; the first component of the result is the post-call state of that
list, making the mutation explicit.  The second component is the returned
dict: the paragraph-joined text of non-empty chunks in index order
(stripped, as `full_text.strip()`), and all chunks' segments flattened in
index order then stably sorted by start time. -/
def merge_chunks (chunk_results : List ChunkResult) :
    List ChunkResult × TranscriptResult :=
  let sorted := sort_by_index chunk_results
  let full_text := pyJoin (str "\n\n")
    ((sorted.filter (fun c => c.text ≠ [])).map ChunkResult.text)
  let all_segments := (sorted.map ChunkResult.segments).flatten
  (sorted, ⟨pyStrip full_text, sort_by_start all_segments⟩)

/-- The `chunk_info` dict handed to `transcribe_chunk_worker`: absolute
start offset and sequence index (the file path only feeds the I/O calls,
which are outside the embedding). -/
structure ChunkInfo where
  start : ℚ
  index : ℕ
deriving DecidableEq

/-- A chunk-local segment as produced by the transcription model for one
chunk: timestamps are relative to the chunk's own start. -/
structure RawSegment where
  start : ℚ
  stop : ℚ
  text : PyStr
deriving DecidableEq

/-- Body of the `for segment in segments` loop of
`transcribe_chunk_worker`: rebase both timestamps by the chunk's absolute
start, strip the text, and append to both `segment_list` and `text_parts`
only if the stripped text is non-empty. -/
def worker_step (info_start : ℚ) (acc : List Segment × List PyStr)
    (seg : RawSegment) : List Segment × List PyStr :=
  let adjusted : Segment :=
    ⟨seg.start + info_start, seg.stop + info_start, pyStrip seg.text⟩
  if adjusted.text ≠ [] then (acc.1 ++ [adjusted], acc.2 ++ [adjusted.text])
  else acc

/-- `transcribe_chunk_worker`, with the model's output segments passed in
as a value (the model, its decoding parameters and the file deletion are
external effects).  Returns the dict
`{'text': ..., 'segments': ..., 'chunk_index': ...}`. -/
def transcribe_chunk_worker (model_segments : List RawSegment)
    (chunk_info : ChunkInfo) : ChunkResult :=
  let p := model_segments.foldl (worker_step chunk_info.start) ([], [])
  ⟨pyJoin (str "\n") p.2, p.1, chunk_info.index⟩

/-- The rebased segment kept for a raw model segment. -/
def rebase (info_start : ℚ) (seg : RawSegment) : Segment :=
  ⟨seg.start + info_start, seg.stop + info_start, pyStrip seg.text⟩

/-- One row of the `hearings` table, restricted to the columns this module
reads or writes.  `last_error` models the place the spec's "error message
attached" would live: no `UPDATE` in `parallel_processor.py` writes any
error column, so no update below touches it. -/
structure HearingRow where
  download_status : PyStr
  transcription_status : PyStr
  download_started_at : Bool
  transcription_started_at : Bool
  download_completed_at : Bool
  video_file_path : Option PyStr
  video_size_bytes : Option ℕ
  retry_count : ℕ
  last_error : Option PyStr
deriving DecidableEq

/-- The `status_field` argument of `_update_status_sync`. -/
inductive StatusField where
  | download_status
  | transcription_status
deriving DecidableEq

/-- `_update_status_sync`: sets the given status field, adding the started
timestamp when entering `downloading` or `processing`.  The `error_msg`
parameter is received but never used by the Python function — no branch of
the SQL writes it — so the result does not depend on it. -/
def update_status_sync (r : HearingRow) (f : StatusField) (v : PyStr)
    (error_msg : Option PyStr) : HearingRow :=
  match f with
  | .download_status =>
    if v = str "downloading" then
      { r with download_status := v, download_started_at := true }
    else { r with download_status := v }
  | .transcription_status =>
    if v = str "processing" then
      { r with transcription_status := v, transcription_started_at := true }
    else { r with transcription_status := v }

/-- `_update_download_complete_sync`: marks the download completed and
records path, size and completion timestamp. -/
def update_download_complete_sync (r : HearingRow) (filename : PyStr)
    (file_size : ℕ) : HearingRow :=
  { r with download_status := str "completed",
           video_file_path := some filename,
           video_size_bytes := some file_size,
           download_completed_at := true }

/-- `download_video`, embedded over an attempt oracle: `attempt k` is the
outcome of the download try made with `retry_count = k` (either an error
message or the downloaded size), and `jitter k` is the value
`random.uniform(0, 1)` sampled after that failure.  Mirrors the Python
control flow for a video not already on disk (a failed attempt leaves no
usable file): mark `downloading`, try; on success record completion; on
failure with `retry_count < 3` wait `2 ** retry_count + jitter` and recurse
with `retry_count + 1`; otherwise mark `failed`.  Returns the final row
together with the list of backoff waits, in order. -/
def download_video (attempt : ℕ → Except PyStr ℕ) (jitter : ℕ → ℚ)
    (filename : PyStr) : ℕ → HearingRow → HearingRow × List ℚ
  | retry_count, r =>
    let r1 := update_status_sync r .download_status (str "downloading") none
    match attempt retry_count with
    | .ok file_size => (update_download_complete_sync r1 filename file_size, [])
    | .error e =>
      if h : retry_count < 3 then
        let w : ℚ := 2 ^ retry_count + jitter retry_count
        let rest := download_video attempt jitter filename (retry_count + 1) r1
        (rest.1, w :: rest.2)
      else
        (update_status_sync r1 .download_status (str "failed") (some e), [])
termination_by retry_count _ => 4 - retry_count
decreasing_by omega

/-- The chunk files of a hearing, as matched by the glob
`{hearing_id}_chunk_*.wav`. -/
def is_chunk_file (hearing_id p : PyStr) : Bool :=
  ((hearing_id ++ str "_chunk_").isPrefixOf p) && ((str ".wav").isSuffixOf p)

/-- The `except` handler of `transcribe_video` (the failure path): mark the
transcription `failed` — passing the exception text to the updater — then
best-effort delete the extracted audio file and every chunk file of this
hearing.  State is the row and the list of files on disk. -/
def transcribe_video_on_error (hearing_id e : PyStr) (r : HearingRow)
    (files : List PyStr) : HearingRow × List PyStr :=
  let r' := update_status_sync r .transcription_status (str "failed") (some e)
  let audio_path := hearing_id ++ str "_full.wav"
  let files1 := files.filter (fun p => p ≠ audio_path)
  (r', files1.filter (fun p => ¬ is_chunk_file hearing_id p))

example : split_audio_plan 90 30 [] =
    some [⟨0, 30, 0⟩, ⟨30, 30, 1⟩, ⟨60, 30, 2⟩] := by
  norm_num [split_audio_plan, split_fuel, split_loop, best_split, min_def]

example : split_audio_plan (61/2) 30 [] = some [⟨0, 30, 0⟩] := by
  have hc : (Int.ceil ((61:ℚ)/60)).toNat = 2 := by
    rw [show Int.ceil ((61:ℚ)/60) = 2 by rw [Int.ceil_eq_iff] <;> norm_num]
    rfl
  norm_num [split_audio_plan, split_fuel, hc, split_loop, best_split, min_def]

lemma eligible_end_cons {p : Period} {l : List Period} {s t e : ℚ} :
    eligible_end (p :: l) s t e ↔
      (p.endTime = some e ∧ s < e ∧ e ≤ t + 5) ∨ eligible_end l s t e := by
  simp [eligible_end, List.mem_cons, or_and_right, exists_or]

/-- Running the candidate search from an accumulator that already holds an
actual candidate `v` yields a result that is `v` or an eligible end of the
remaining list, and beats every eligible end of the remaining list. -/
lemma foldl_better_split_some (s t : ℚ) :
    ∀ (l : List Period) (v : ℚ),
      ∃ w, l.foldl (better_split s t) (v, some |v - t|) = (w, some |w - t|) ∧
        (w = v ∨ eligible_end l s t w) ∧ |w - t| ≤ |v - t| ∧
        ∀ e, eligible_end l s t e → |w - t| ≤ |e - t| := by
  intro l
  induction l with
  | nil =>
    intro v
    exact ⟨v, rfl, Or.inl rfl, le_refl _, fun e he => absurd he (by simp [eligible_end])⟩
  | cons p l ih =>
    intro v
    rw [List.foldl_cons]
    rcases hp : p.endTime with _ | e
    · obtain ⟨w, hw, hmem, hle, hmin⟩ := ih v
      refine ⟨w, by rw [better_split, hp]; exact hw, ?_, hle, ?_⟩
      · rcases hmem with h | h
        · exact Or.inl h
        · exact Or.inr (eligible_end_cons.mpr (Or.inr h))
      · intro e' he'
        rcases eligible_end_cons.mp he' with ⟨hpe, _, _⟩ | h
        · rw [hp] at hpe
          cases hpe
        · exact hmin e' h
    · by_cases hwin : s < e ∧ e ≤ t + 5
      · by_cases hd : |e - t| < |v - t|
        · obtain ⟨w, hw, hmem, hle, hmin⟩ := ih e
          refine ⟨w, ?_, ?_, hle.trans hd.le, ?_⟩
          · rw [better_split, hp]
            simp only [hwin, if_true, hd, if_true]
            exact hw
          · rcases hmem with h | h
            · exact Or.inr (eligible_end_cons.mpr (Or.inl ⟨h ▸ hp, h ▸ hwin.1, h ▸ hwin.2⟩))
            · exact Or.inr (eligible_end_cons.mpr (Or.inr h))
          · intro e' he'
            rcases eligible_end_cons.mp he' with ⟨hpe, _, _⟩ | h
            · rw [hp] at hpe
              cases hpe
              exact hle
            · exact hmin e' h
        · obtain ⟨w, hw, hmem, hle, hmin⟩ := ih v
          refine ⟨w, ?_, ?_, hle, ?_⟩
          · rw [better_split, hp]
            simp only [hwin, if_true, hd, if_false]
            exact hw
          · rcases hmem with h | h
            · exact Or.inl h
            · exact Or.inr (eligible_end_cons.mpr (Or.inr h))
          · intro e' he'
            rcases eligible_end_cons.mp he' with ⟨hpe, _, _⟩ | h
            · rw [hp] at hpe
              cases hpe
              exact hle.trans (not_lt.mp hd)
            · exact hmin e' h
      · obtain ⟨w, hw, hmem, hle, hmin⟩ := ih v
        refine ⟨w, ?_, ?_, hle, ?_⟩
        · rw [better_split, hp]
          simp only [hwin, if_false]
          exact hw
        · rcases hmem with h | h
          · exact Or.inl h
          · exact Or.inr (eligible_end_cons.mpr (Or.inr h))
        · intro e' he'
          rcases eligible_end_cons.mp he' with ⟨hpe, h1, h2⟩ | h
          · rw [hp] at hpe
            cases hpe
            exact absurd ⟨h1, h2⟩ hwin
          · exact hmin e' h

/-- Characterisation of `best_split`: either no silence end is eligible and
the split is exactly `target_end`, or the split is an eligible end at
minimal distance from `target_end`. -/
lemma best_split_spec (periods : List Period) (s t : ℚ) :
    (best_split periods s t = t ∧ ∀ e, ¬ eligible_end periods s t e) ∨
    (eligible_end periods s t (best_split periods s t) ∧
      ∀ e, eligible_end periods s t e → |best_split periods s t - t| ≤ |e - t|) := by
  induction periods with
  | nil =>
    exact Or.inl ⟨rfl, fun e he => by simp [eligible_end] at he⟩
  | cons p l ih =>
    rcases hp : p.endTime with _ | e
    · have hstep : best_split (p :: l) s t = best_split l s t := by
        rw [best_split, best_split, List.foldl_cons, better_split, hp]
      rw [hstep]
      rcases ih with ⟨heq, hnone⟩ | ⟨helig, hmin⟩
      · refine Or.inl ⟨heq, fun e' he' => ?_⟩
        rcases eligible_end_cons.mp he' with ⟨hpe, _, _⟩ | h
        · rw [hp] at hpe
          cases hpe
        · exact hnone e' h
      · refine Or.inr ⟨eligible_end_cons.mpr (Or.inr helig), fun e' he' => ?_⟩
        rcases eligible_end_cons.mp he' with ⟨hpe, _, _⟩ | h
        · rw [hp] at hpe
          cases hpe
        · exact hmin e' h
    · by_cases hwin : s < e ∧ e ≤ t + 5
      · have hstep : (p :: l).foldl (better_split s t) (t, none) =
            l.foldl (better_split s t) (e, some |e - t|) := by
          have hb : better_split s t (t, none) p = (e, some |e - t|) := by
            simp [better_split, hp, hwin]
          rw [List.foldl_cons, hb]
        obtain ⟨w, hw, hmem, hle, hmin⟩ := foldl_better_split_some s t l e
        have hbs : best_split (p :: l) s t = w := by
          rw [best_split, hstep, hw]
        rw [hbs]
        refine Or.inr ⟨?_, ?_⟩
        · rcases hmem with h | h
          · exact eligible_end_cons.mpr (Or.inl ⟨h ▸ hp, h ▸ hwin.1, h ▸ hwin.2⟩)
          · exact eligible_end_cons.mpr (Or.inr h)
        · intro e' he'
          rcases eligible_end_cons.mp he' with ⟨hpe, _, _⟩ | h
          · rw [hp] at hpe
            cases hpe
            exact hle
          · exact hmin e' h
      · have hstep : best_split (p :: l) s t = best_split l s t := by
          rw [best_split, best_split, List.foldl_cons, better_split, hp]
          simp only [hwin, if_false]
        rw [hstep]
        rcases ih with ⟨heq, hnone⟩ | ⟨helig, hmin⟩
        · refine Or.inl ⟨heq, fun e' he' => ?_⟩
          rcases eligible_end_cons.mp he' with ⟨hpe, h1, h2⟩ | h
          · rw [hp] at hpe
            cases hpe
            exact absurd ⟨h1, h2⟩ hwin
          · exact hnone e' h
        · refine Or.inr ⟨eligible_end_cons.mpr (Or.inr helig), fun e' he' => ?_⟩
          rcases eligible_end_cons.mp he' with ⟨hpe, h1, h2⟩ | h
          · rw [hp] at hpe
            cases hpe
            exact absurd ⟨h1, h2⟩ hwin
          · exact hmin e' h

/-- The chosen split point is either the raw target or an eligible end. -/
lemma best_split_mem (periods : List Period) (s t : ℚ) :
    best_split periods s t = t ∨ eligible_end periods s t (best_split periods s t) := by
  rcases best_split_spec periods s t with ⟨h, _⟩ | ⟨h, _⟩
  · exact Or.inl h
  · exact Or.inr h

/-- C2: at a planning step with current start `s` and target end
`t = min (s + chunk_len) duration`, if some silence period has a recorded
end in the window `(s, t + 5]` then the chosen split point is such an end
at minimal distance `|e - t|` from the target; if no recorded end falls in
the window, the split point is exactly `t`. -/
theorem c2_split_at_nearest_silence (periods : List Period)
    (chunk_len duration s : ℚ) :
    ((∃ e, eligible_end periods s (min (s + chunk_len) duration) e) →
      ∃ e, eligible_end periods s (min (s + chunk_len) duration) e ∧
        best_split periods s (min (s + chunk_len) duration) = e ∧
        ∀ e', eligible_end periods s (min (s + chunk_len) duration) e' →
          |e - min (s + chunk_len) duration| ≤ |e' - min (s + chunk_len) duration|) ∧
    ((∀ e, ¬ eligible_end periods s (min (s + chunk_len) duration) e) →
      best_split periods s (min (s + chunk_len) duration) =
        min (s + chunk_len) duration) := by
  constructor
  · intro ⟨e₀, he₀⟩
    rcases best_split_spec periods s (min (s + chunk_len) duration) with
      ⟨_, hnone⟩ | ⟨helig, hmin⟩
    · exact absurd he₀ (hnone e₀)
    · exact ⟨_, helig, rfl, hmin⟩
  · intro hnone
    rcases best_split_spec periods s (min (s + chunk_len) duration) with
      ⟨heq, _⟩ | ⟨helig, _⟩
    · exact heq
    · exact absurd helig (hnone _)

/-- Witness for C2 at a concrete input: with a silence period recorded as
`(25, 29)` and one as `(3, 6)`, chunk length 30 and duration 100, the step
from `s = 0` targets `t = 30` and splits at 29, the eligible end nearest
the target. -/
theorem c2_split_at_nearest_silence_witness :
    ∃ e, eligible_end [⟨25, some 29⟩, ⟨3, some 6⟩] 0 (min (0 + 30) 100) e ∧
      best_split [⟨25, some 29⟩, ⟨3, some 6⟩] 0 (min (0 + 30) 100) = e ∧
      ∀ e', eligible_end [⟨25, some 29⟩, ⟨3, some 6⟩] 0 (min (0 + 30) 100) e' →
        |e - min (0 + 30) 100| ≤ |e' - min (0 + 30) 100| :=
  (c2_split_at_nearest_silence [⟨25, some 29⟩, ⟨3, some 6⟩] 30 100 0).1
    ⟨29, ⟨25, some 29⟩, by simp, rfl, by norm_num, by norm_num⟩

lemma ends_after_mono (periods : List Period) {s s' : ℚ} (h : s ≤ s') :
    ends_after periods s' ≤ ends_after periods s := by
  apply List.countP_mono_left
  intro p _ hp
  rcases he : p.endTime with _ | e <;> rw [he] at hp <;> simp_all
  exact lt_of_le_of_lt h hp

lemma countP_lt_of_mem {α : Type} {l : List α} {p q : α → Bool}
    (himp : ∀ x ∈ l, q x → p x) {x₀ : α} (hx : x₀ ∈ l) (hp : p x₀)
    (hq : ¬ q x₀) : l.countP q < l.countP p := by
  induction l with
  | nil => cases hx
  | cons a l ih =>
    rw [List.countP_cons, List.countP_cons]
    rcases List.mem_cons.mp hx with rfl | hx'
    · have h1 : l.countP q ≤ l.countP p :=
        List.countP_mono_left (fun x hx => himp x (List.mem_cons_of_mem _ hx))
      have hqa : q x₀ = false := by simpa using hq
      simp only [hp, hqa]
      norm_num
      omega
    · have h2 : l.countP q < l.countP p :=
        ih (fun x hx => himp x (List.mem_cons_of_mem _ hx)) hx'
      by_cases hqa : q a
      · have hpa : p a = true := himp a (List.mem_cons_self _ _) hqa
        simp only [hqa, hpa]
        norm_num
        omega
      · have hqa' : q a = false := by simpa using hqa
        simp only [hqa']
        norm_num
        by_cases hpa : p a
        · simp only [hpa]
          norm_num
          omega
        · have hpa' : p a = false := by simpa using hpa
          simp only [hpa']
          norm_num
          omega

/-- Advancing to an eligible silence end strictly decreases the count of
later silence ends: the end just consumed no longer counts. -/
lemma ends_after_lt_of_eligible {periods : List Period} {s t e : ℚ}
    (he : eligible_end periods s t e) : ends_after periods e < ends_after periods s := by
  obtain ⟨p, hmem, hend, hlt, _⟩ := he
  refine countP_lt_of_mem ?_ hmem ?_ ?_
  · intro x _ hx
    rcases hex : x.endTime with _ | ex <;> rw [hex] at hx <;> simp_all
    exact hlt.trans hx
  · rw [hend]
    simpa using hlt
  · rw [hend]
    simp

lemma ceil_term_mono (duration chunk_len : ℚ) (hL : 0 < chunk_len) {s s' : ℚ}
    (h : s ≤ s') :
    (Int.ceil ((duration - s') / chunk_len)).toNat ≤
      (Int.ceil ((duration - s) / chunk_len)).toNat := by
  apply Int.toNat_le_toNat
  apply Int.ceil_le_ceil
  gcongr

/-- Crossing the duration zeroes the ceiling part of the measure. -/
lemma ceil_term_zero {duration chunk_len s : ℚ} (hL : 0 < chunk_len)
    (h : duration ≤ s) : (Int.ceil ((duration - s) / chunk_len)).toNat = 0 := by
  apply Int.toNat_of_nonpos
  have hdiv : (duration - s) / chunk_len ≤ 0 :=
    div_nonpos_of_nonpos_of_nonneg (by linarith) hL.le
  exact Int.ceil_le.mpr (by exact_mod_cast hdiv)

/-- While the loop is still running, the ceiling part is at least one. -/
lemma ceil_term_pos {duration chunk_len s : ℚ} (hL : 0 < chunk_len)
    (h : s < duration) : 1 ≤ (Int.ceil ((duration - s) / chunk_len)).toNat := by
  have hpos : 0 < (duration - s) / chunk_len := div_pos (by linarith) hL
  have := Int.ceil_pos.mpr hpos
  omega

/-- A full-length step decrements the ceiling part of the measure. -/
lemma ceil_term_step {duration chunk_len s : ℚ} (hL : 0 < chunk_len)
    (h : s + chunk_len ≤ duration) :
    (Int.ceil ((duration - (s + chunk_len)) / chunk_len)).toNat <
      (Int.ceil ((duration - s) / chunk_len)).toNat := by
  have hx : (duration - (s + chunk_len)) / chunk_len =
      (duration - s) / chunk_len - 1 := by
    field_simp
    ring
  have hone : (1:ℚ) ≤ (duration - s) / chunk_len := by
    rw [le_div_iff hL]
    linarith
  have hceil : Int.ceil ((duration - (s + chunk_len)) / chunk_len) =
      Int.ceil ((duration - s) / chunk_len) - 1 := by
    rw [hx]
    exact_mod_cast Int.ceil_sub_int ((duration - s) / chunk_len) 1
  have hpos : 0 < Int.ceil ((duration - s) / chunk_len) :=
    Int.ceil_pos.mpr (div_pos (by linarith) hL)
  rw [hceil]
  omega

/-- Each executed iteration of the planning loop strictly decreases the
termination measure. -/
lemma split_measure_decr (duration chunk_len : ℚ) (periods : List Period)
    (hL : 0 < chunk_len) {s : ℚ} (hs : s < duration) :
    split_measure duration chunk_len periods
        (best_split periods s (min (s + chunk_len) duration)) <
      split_measure duration chunk_len periods s := by
  set t := min (s + chunk_len) duration with ht
  have hst : s < t := lt_min (by linarith) hs
  rcases best_split_mem periods s t with hb | hb
  · rw [hb]
    rcases min_cases (s + chunk_len) duration with ⟨hmin, hcase⟩ | ⟨hmin, hcase⟩
    · rw [split_measure, split_measure, ht, hmin]
      have h1 := ends_after_mono periods (le_of_lt (by linarith : s < s + chunk_len))
      have h2 := ceil_term_step hL (by linarith : s + chunk_len ≤ duration)
      omega
    · rw [split_measure, split_measure, ht, hmin]
      have h1 := ends_after_mono periods hs.le
      have h2 := ceil_term_zero hL (le_refl duration)
      have h3 := ceil_term_pos hL hs
      omega
  · have hlt : s < best_split periods s t := by
      obtain ⟨p, _, _, h, _⟩ := hb
      exact h
    have h1 := ends_after_lt_of_eligible hb
    have h2 := ceil_term_mono duration chunk_len hL hlt.le
    rw [split_measure, split_measure]
    omega

/-- With enough fuel — at least the measure of the current state — the
planning loop completes rather than running out. -/
lemma split_loop_isSome (periods : List Period) (duration chunk_len : ℚ)
    (hL : 0 < chunk_len) :
    ∀ (fuel : ℕ) (s : ℚ) (n : ℕ) (acc : List Chunk),
      split_measure duration chunk_len periods s ≤ fuel →
      (split_loop periods duration chunk_len fuel s n acc).isSome := by
  intro fuel
  induction fuel with
  | zero =>
    intro s n acc hm
    rw [split_loop]
    by_cases hs : s < duration
    · exfalso
      have h1 := ceil_term_pos hL hs
      rw [split_measure] at hm
      omega
    · simp [hs]
  | succ f ih =>
    intro s n acc hm
    rw [split_loop]
    by_cases hs : s < duration
    · simp only [if_pos hs]
      have hdec := split_measure_decr duration chunk_len periods hL hs
      have hble : split_measure duration chunk_len periods
          (best_split periods s (min (s + chunk_len) duration)) ≤ f := by omega
      split
      · exact ih _ _ _ hble
      · exact ih _ _ _ hble
    · simp [hs]

/-- The fuel used by `split_audio_plan` is sufficient whenever the chunk
length is positive: the Python `while` loop terminates on such inputs and
the embedding returns `some`. -/
lemma split_audio_plan_isSome (duration chunk_len : ℚ) (periods : List Period)
    (hL : 0 < chunk_len) : (split_audio_plan duration chunk_len periods).isSome := by
  apply split_loop_isSome _ _ _ hL
  rw [split_measure, split_fuel]
  have h1 : ends_after periods 0 ≤ periods.countP (fun p => p.endTime.isSome) := by
    apply List.countP_mono_left
    intro p _ hp
    rcases he : p.endTime with _ | e <;> rw [he] at hp <;> simp_all
  have h2 : duration - 0 = duration := by ring
  rw [h2]
  omega

/-- Each executed iteration strictly advances `current_start`. -/
lemma best_split_progress (periods : List Period) {duration chunk_len s : ℚ}
    (hL : 0 < chunk_len) (hs : s < duration) :
    s < best_split periods s (min (s + chunk_len) duration) := by
  rcases best_split_mem periods s (min (s + chunk_len) duration) with h | h
  · rw [h]
    exact lt_min (by linarith) hs
  · obtain ⟨p, _, _, hlt, _⟩ := h
    exact hlt

/-- C9: for any duration and silence list, when the chunk length is
positive the planning loop of `split_audio_with_silence_detection`
terminates: the split point chosen in an iteration is strictly greater
than the current start (only silence ends strictly beyond the current
start are eligible), so the loop completes within the fuel bound. -/
theorem c9_planning_loop_terminates (duration chunk_len : ℚ)
    (periods : List Period) (hL : 0 < chunk_len) :
    (∀ s, s < duration → s < best_split periods s (min (s + chunk_len) duration)) ∧
    (∀ s e, eligible_end periods s (min (s + chunk_len) duration) e → s < e) ∧
    (split_audio_plan duration chunk_len periods).isSome := by
  refine ⟨fun s hs => best_split_progress periods hL hs, ?_, split_audio_plan_isSome duration chunk_len periods hL⟩
  intro s e he
  obtain ⟨p, _, _, hlt, _⟩ := he
  exact hlt

/-- Witness for C9 at a concrete input. -/
theorem c9_planning_loop_terminates_witness :
    (0:ℚ) < 30 ∧ (split_audio_plan 90 30 [⟨30, some 31⟩]).isSome :=
  ⟨by norm_num, (c9_planning_loop_terminates 90 30 [⟨30, some 31⟩] (by norm_num)).2.2⟩

@[simp] lemma best_split_nil (s t : ℚ) : best_split [] s t = t := rfl

/-- Complete characterisation of the planning loop when the silence list is
empty and the chunk length exceeds the half-second viability threshold:
the emitted spans are contiguous from the current start, each longer than
half a second and at most the chunk length, they are indexed consecutively,
and they reach the total duration except possibly for a dropped tail of at
most half a second. -/
lemma split_loop_empty_spec (duration chunk_len : ℚ) (hL : 1/2 < chunk_len) :
    ∀ (fuel : ℕ) (s : ℚ) (n : ℕ) (acc : List Chunk) (cs : List Chunk),
      s ≤ duration →
      split_loop [] duration chunk_len fuel s n acc = some cs →
      ∃ tl, cs = acc ++ tl ∧ chain_from s tl ∧
        (∀ c ∈ tl, 1/2 < c.duration ∧ c.duration ≤ chunk_len) ∧
        duration - last_end s tl ≤ 1/2 ∧ last_end s tl ≤ duration ∧
        tl.map Chunk.index = List.range' n tl.length := by
  intro fuel
  induction fuel with
  | zero =>
    intro s n acc cs hsle heq
    rw [split_loop] at heq
    by_cases hs : s < duration
    · simp [hs] at heq
    · simp only [if_neg hs] at heq
      cases heq
      have hsd : s = duration := le_antisymm hsle (not_lt.mp hs)
      exact ⟨[], by simp, trivial, by simp, by simp [last_end, hsd],
        by simp [last_end, hsle], by simp [List.range']⟩
  | succ f ih =>
    intro s n acc cs hsle heq
    rw [split_loop] at heq
    by_cases hs : s < duration
    · simp only [if_pos hs, best_split_nil] at heq
      by_cases hd : (1:ℚ)/2 < min (s + chunk_len) duration - s
      · rw [if_pos hd] at heq
        have htle : min (s + chunk_len) duration ≤ duration := min_le_right _ _
        obtain ⟨tl', hcs, hchain, hdurs, hg1, hg2, hidx⟩ := ih _ (n + 1) _ cs htle heq
        refine ⟨⟨s, min (s + chunk_len) duration - s, n⟩ :: tl', ?_, ?_, ?_, ?_, ?_, ?_⟩
        · rw [hcs, List.append_assoc]
          rfl
        · refine ⟨rfl, ?_⟩
          have hst : s + (min (s + chunk_len) duration - s) =
              min (s + chunk_len) duration := by ring
          simpa [chain_from, hst] using hchain
        · intro c hc
          rcases List.mem_cons.mp hc with rfl | hc'
          · refine ⟨hd, ?_⟩
            have h := min_le_left (s + chunk_len) duration
            show (s + chunk_len) ⊓ duration - s ≤ chunk_len
            linarith
          · exact hdurs c hc'
        · have hst : s + (min (s + chunk_len) duration - s) =
              min (s + chunk_len) duration := by ring
          simpa [last_end, hst] using hg1
        · have hst : s + (min (s + chunk_len) duration - s) =
              min (s + chunk_len) duration := by ring
          simpa [last_end, hst] using hg2
        · simp only [List.map_cons, hidx, List.length_cons]
          rw [List.range'_succ]
      · rw [if_neg hd] at heq
        have htd : min (s + chunk_len) duration = duration := by
          rcases min_cases (s + chunk_len) duration with ⟨hmin, _⟩ | ⟨hmin, _⟩
          · exfalso
            rw [hmin] at hd
            have : s + chunk_len - s = chunk_len := by ring
            rw [this] at hd
            exact hd hL
          · exact hmin
        rw [htd] at heq
        have hstop : split_loop [] duration chunk_len f duration n acc = some acc := by
          rw [split_loop.eq_def]
          simp
        rw [hstop] at heq
        cases heq
        refine ⟨[], by simp, trivial, by simp, ?_, ?_, by simp [List.range']⟩
        · rw [htd] at hd
          simp only [last_end]
          linarith [not_lt.mp hd]
        · simpa [last_end] using hsle
    · simp only [if_neg hs] at heq
      cases heq
      have hsd : s = duration := le_antisymm hsle (not_lt.mp hs)
      exact ⟨[], by simp, trivial, by simp, by simp [last_end, hsd],
        by simp [last_end, hsle], by simp [List.range']⟩

/-- C1 counterexample: with total duration `30.5`, chunk length `30` and an
empty silence list, the planner emits the single span `[0, 30]`: the last
emitted span ends at `30`, not at the total duration `30.5`, so the spans
do not partition `[0, D]` — the half-second tail is dropped (no file is cut
for it), not absorbed into any emitted span. -/
theorem c1_counterexample :
    split_audio_plan (61/2) 30 [] = some [⟨0, 30, 0⟩] ∧
      (0:ℚ) + 30 ≠ 61/2 := by
  constructor
  · have hc : (Int.ceil ((61:ℚ)/60)).toNat = 2 := by
      rw [show Int.ceil ((61:ℚ)/60) = 2 by rw [Int.ceil_eq_iff] <;> norm_num]
      rfl
    norm_num [split_audio_plan, split_fuel, hc, split_loop, best_split, min_def]
  · norm_num

/-- C1 (amended): for `D > 0` and chunk length `L > 0.5` with an empty
silence list, `split_audio_with_silence_detection` emits spans that are
contiguous from `0` (no gaps, no overlaps), each of duration in
`(0.5, L]`, consecutively indexed from `0`; they cover `[0, D]` except
possibly for a final tail of at most `0.5` seconds, which is dropped
without being cut into a file (the spans end within `0.5` of `D`, and at
`D` exactly whenever the division leaves no such short tail). -/
theorem c1_amended_no_silence_partition (duration chunk_len : ℚ)
    (hD : 0 < duration) (hL : 1/2 < chunk_len) :
    ∃ cs, split_audio_plan duration chunk_len [] = some cs ∧
      chain_from 0 cs ∧
      (∀ c ∈ cs, 1/2 < c.duration ∧ c.duration ≤ chunk_len) ∧
      duration - last_end 0 cs ≤ 1/2 ∧ last_end 0 cs ≤ duration ∧
      cs.map Chunk.index = List.range cs.length := by
  have hsome := split_audio_plan_isSome duration chunk_len [] (by linarith)
  obtain ⟨cs, hcs⟩ := Option.isSome_iff_exists.mp hsome
  obtain ⟨tl, htl, hchain, hdurs, hg1, hg2, hidx⟩ :=
    split_loop_empty_spec duration chunk_len hL _ 0 0 [] cs hD.le hcs
  rw [List.nil_append] at htl
  subst htl
  refine ⟨cs, hcs, hchain, hdurs, hg1, hg2, ?_⟩
  rw [hidx]
  exact (List.range_eq_range' _).symm

lemma parse_silence_append_start (ls : List DiagLine) (t : ℚ) :
    parse_silence (ls ++ [DiagLine.silenceStart t]) =
      parse_silence ls ++ [⟨t, none⟩] := by
  rw [parse_silence, parse_silence, List.foldl_append]
  rfl

lemma best_split_append_none (P : List Period) (a s t : ℚ) :
    best_split (P ++ [⟨a, none⟩]) s t = best_split P s t := by
  rw [best_split, best_split, List.foldl_append]
  rfl

/-- A period with no recorded `'end'` never influences the planning loop:
the `'end' in silence` guard filters it out of every candidate search. -/
lemma split_loop_append_none (P : List Period) (a duration chunk_len : ℚ) :
    ∀ (fuel : ℕ) (s : ℚ) (n : ℕ) (acc : List Chunk),
      split_loop (P ++ [⟨a, none⟩]) duration chunk_len fuel s n acc =
        split_loop P duration chunk_len fuel s n acc := by
  intro fuel
  induction fuel with
  | zero => intro s n acc; rfl
  | succ f ih =>
    intro s n acc
    rw [split_loop.eq_def]
    conv_rhs => rw [split_loop.eq_def]
    by_cases hs : s < duration
    · simp only [if_pos hs, best_split_append_none, ih]
    · simp only [if_neg hs]

lemma split_fuel_append_none (duration chunk_len a : ℚ) (P : List Period) :
    split_fuel duration chunk_len (P ++ [⟨a, none⟩]) =
      split_fuel duration chunk_len P := by
  simp [split_fuel, List.countP_append]

/-- Witness for the amended C1 at `D = 90`, `L = 30`. -/
theorem c1_amended_no_silence_partition_witness :
    (0:ℚ) < 90 ∧ (1:ℚ)/2 < 30 ∧
      ∃ cs, split_audio_plan 90 30 [] = some cs ∧
        chain_from 0 cs ∧
        (∀ c ∈ cs, 1/2 < c.duration ∧ c.duration ≤ 30) ∧
        (90:ℚ) - last_end 0 cs ≤ 1/2 ∧ last_end 0 cs ≤ 90 ∧
        cs.map Chunk.index = List.range cs.length :=
  ⟨by norm_num, by norm_num,
    c1_amended_no_silence_partition 90 30 (by norm_num) (by norm_num)⟩

/-- C8: a silence interval is usable for chunk planning only when both a
start and a matching end marker were observed.  A trailing
`silence_start` with no matching `silence_end` is parsed into a period
with no recorded end, and such a period never contributes a split point:
the planner's output is unchanged by its presence. -/
theorem c8_unterminated_silence_dropped (duration chunk_len t : ℚ)
    (ls : List DiagLine) :
    parse_silence (ls ++ [DiagLine.silenceStart t]) =
      parse_silence ls ++ [⟨t, none⟩] ∧
    split_audio_with_silence_detection duration chunk_len
        (ls ++ [DiagLine.silenceStart t]) =
      split_audio_with_silence_detection duration chunk_len ls := by
  refine ⟨parse_silence_append_start ls t, ?_⟩
  rw [split_audio_with_silence_detection, split_audio_with_silence_detection,
    parse_silence_append_start, split_audio_plan, split_audio_plan,
    split_fuel_append_none, split_loop_append_none]

/-- C10: `merge_chunks` mutates its argument: it sorts the caller's list in
place by `chunk_index`, so after every call the caller's list is in
ascending `chunk_index` order whatever its original order was, and its
contents are otherwise unchanged (a permutation of the input). -/
theorem c10_merge_sorts_input_in_place (chunk_results : List ChunkResult) :
    ((merge_chunks chunk_results).1).Perm chunk_results ∧
    List.Sorted idx_le (merge_chunks chunk_results).1 :=
  ⟨List.perm_insertionSort idx_le chunk_results,
    List.sorted_insertionSort idx_le chunk_results⟩

/-- Sorted-by-index lists that are permutations of each other and have no
duplicate index are equal. -/
lemma sort_by_index_eq_of_perm {l₁ l₂ : List ChunkResult} (hp : l₁.Perm l₂)
    (hn : (l₁.map ChunkResult.chunk_index).Nodup) :
    sort_by_index l₁ = sort_by_index l₂ := by
  have hperm : (sort_by_index l₁).Perm (sort_by_index l₂) :=
    (List.perm_insertionSort idx_le l₁).trans
      (hp.trans (List.perm_insertionSort idx_le l₂).symm)
  have hstrict : ∀ l : List ChunkResult, (l.map ChunkResult.chunk_index).Nodup →
      List.Sorted idx_lt (sort_by_index l) := by
    intro l hnd
    have hs : List.Sorted idx_le (sort_by_index l) :=
      List.sorted_insertionSort idx_le l
    have hnd' : ((sort_by_index l).map ChunkResult.chunk_index).Nodup :=
      (((List.perm_insertionSort idx_le l).map ChunkResult.chunk_index).nodup_iff).mpr hnd
    have hne : List.Pairwise
        (fun a b : ChunkResult => a.chunk_index ≠ b.chunk_index)
        (sort_by_index l) := List.pairwise_map.mp hnd'
    exact (hs.and hne).imp (fun h => lt_of_le_of_ne h.1 h.2)
  have hn₂ : (l₂.map ChunkResult.chunk_index).Nodup :=
    ((hp.map ChunkResult.chunk_index).nodup_iff).mp hn
  exact List.eq_of_perm_of_sorted hperm (hstrict l₁ hn) (hstrict l₂ hn₂)

/-- C3 counterexample: with two chunk results sharing `chunk_index = 0`,
permuting the input changes the full text (the stable sort keeps the
original relative order of equal indices); and the produced text is the
whitespace-stripped join, not the raw join, when a chunk's text carries
surrounding whitespace. -/
theorem c3_counterexample :
    (merge_chunks [⟨str "a", [], 0⟩, ⟨str "b", [], 0⟩]).2.text ≠
      (merge_chunks [⟨str "b", [], 0⟩, ⟨str "a", [], 0⟩]).2.text ∧
    (merge_chunks [⟨str " x ", [], 0⟩]).2.text ≠ str " x " := by
  constructor
  · decide
  · decide

/-- C3 (amended): for chunk-result lists whose chunk indices are pairwise
distinct, `merge_chunks` produces the same full text for every permutation
of the list, and that text is the whitespace-stripped paragraph-separated
join of the chunks' texts taken in ascending `chunk_index` order, skipping
chunks whose text is empty. -/
theorem c3_amended_full_text_permutation_invariant (l₁ l₂ : List ChunkResult)
    (hp : l₁.Perm l₂) (hn : (l₁.map ChunkResult.chunk_index).Nodup) :
    (merge_chunks l₁).2.text = (merge_chunks l₂).2.text ∧
    ∃ s, s.Perm l₁ ∧ List.Sorted idx_le s ∧
      (merge_chunks l₁).2.text = pyStrip (pyJoin (str "\n\n")
        ((s.filter (fun c => c.text ≠ [])).map ChunkResult.text)) := by
  have hs := sort_by_index_eq_of_perm hp hn
  constructor
  · show pyStrip (pyJoin (str "\n\n")
        (((sort_by_index l₁).filter (fun c => c.text ≠ [])).map ChunkResult.text)) =
      pyStrip (pyJoin (str "\n\n")
        (((sort_by_index l₂).filter (fun c => c.text ≠ [])).map ChunkResult.text))
    rw [hs]
  · exact ⟨sort_by_index l₁, List.perm_insertionSort idx_le l₁,
      List.sorted_insertionSort idx_le l₁, rfl⟩

/-- Witness for the amended C3 on a concrete out-of-order pair. -/
theorem c3_amended_full_text_permutation_invariant_witness :
    ([⟨str "b", [], 1⟩, ⟨str "a", [], 0⟩] : List ChunkResult).Perm
        [⟨str "a", [], 0⟩, ⟨str "b", [], 1⟩] ∧
    (([⟨str "b", [], 1⟩, ⟨str "a", [], 0⟩] : List ChunkResult).map
        ChunkResult.chunk_index).Nodup ∧
    (merge_chunks [⟨str "b", [], 1⟩, ⟨str "a", [], 0⟩]).2.text =
      (merge_chunks [⟨str "a", [], 0⟩, ⟨str "b", [], 1⟩]).2.text :=
  ⟨by decide, by decide,
    (c3_amended_full_text_permutation_invariant _ _ (by decide) (by decide)).1⟩

lemma sublist_orderedInsert_of_forall {α : Type} (r : α → α → Prop)
    [DecidableRel r] :
    ∀ (s c : List α) (a : α), c.Sublist s → (∀ b ∈ c, r a b) →
      (a :: c).Sublist (List.orderedInsert r a s) := by
  intro s
  induction s with
  | nil =>
    intro c a hc _
    rw [List.sublist_nil.mp hc]
    simp [List.orderedInsert]
  | cons b s' ih =>
    intro c a hc hall
    rw [List.orderedInsert]
    by_cases hr : r a b
    · rw [if_pos hr]
      exact List.Sublist.cons₂ a hc
    · rw [if_neg hr]
      cases hc with
      | cons _ h => exact List.Sublist.cons b (ih _ a h hall)
      | cons₂ _ h =>
        exact absurd (hall b (List.mem_cons_self _ _)) hr

/-- Stability of insertion sort: a pairwise-related sublist of the input is
still a sublist of the output.  In particular two equal-key elements keep
their relative order. -/
lemma sublist_insertionSort {α : Type} (r : α → α → Prop) [DecidableRel r] :
    ∀ (l c : List α), List.Pairwise r c → c.Sublist l →
      c.Sublist (List.insertionSort r l) := by
  intro l
  induction l with
  | nil =>
    intro c _ hc
    simpa using hc
  | cons a l' ih =>
    intro c hp hc
    rw [List.insertionSort]
    cases hc with
    | cons _ h =>
      exact (ih _ hp h).trans (List.sublist_orderedInsert a _)
    | cons₂ _ h =>
      rcases List.pairwise_cons.mp hp with ⟨hall, hp'⟩
      exact sublist_orderedInsert_of_forall r _ _ a (ih _ hp' h) hall

/-- C4: the merged segment sequence is sorted non-decreasing by start time,
contains exactly the segments of all input chunks (no deduplication or
overlap correction), and the sort is stable: two equal-start segments keep
the relative order they had in the flattened sequence being sorted (all
chunks' segments in ascending `chunk_index` order). -/
theorem c4_segments_sorted_stable (l : List ChunkResult) :
    List.Sorted start_le (merge_chunks l).2.segments ∧
    ((merge_chunks l).2.segments).Perm ((l.map ChunkResult.segments).flatten) ∧
    (∀ a b : Segment, a.start = b.start →
      [a, b].Sublist (((sort_by_index l).map ChunkResult.segments).flatten) →
      [a, b].Sublist (merge_chunks l).2.segments) := by
  refine ⟨List.sorted_insertionSort start_le _, ?_, ?_⟩
  · exact (List.perm_insertionSort start_le _).trans
      (((List.perm_insertionSort idx_le l).map ChunkResult.segments).flatten)
  · intro a b hstart hsub
    apply sublist_insertionSort start_le _ _ _ hsub
    exact List.pairwise_cons.mpr
      ⟨fun b' hb' => by
        rcases List.mem_singleton.mp hb' with rfl
        exact le_of_eq hstart, List.pairwise_singleton _ _⟩

/-- Witness instantiating C4 on a concrete two-chunk input given out of
index order, with a boundary-duplicated segment start. -/
theorem c4_segments_sorted_stable_witness :
    List.Sorted start_le
      (merge_chunks [⟨str "b", [⟨30, 35, str "y"⟩], 1⟩,
        ⟨str "a", [⟨0, 30, str "x"⟩, ⟨30, 31, str "z"⟩], 0⟩]).2.segments :=
  (c4_segments_sorted_stable _).1

/-- Closed form of the worker's fold: the retained segments are exactly
the rebase of the raw segments whose stripped text is non-empty, in order,
and the text parts are their texts. -/
lemma worker_foldl_spec (info_start : ℚ) :
    ∀ (segs : List RawSegment) (acc : List Segment × List PyStr),
      segs.foldl (worker_step info_start) acc =
        (acc.1 ++ (segs.filter (fun r => pyStrip r.text ≠ [])).map (rebase info_start),
         acc.2 ++ (segs.filter (fun r => pyStrip r.text ≠ [])).map
           (fun r => pyStrip r.text)) := by
  intro segs
  induction segs with
  | nil => intro acc; simp
  | cons r segs ih =>
    intro acc
    rw [List.foldl_cons, ih]
    by_cases hr : pyStrip r.text ≠ []
    · have hstep : worker_step info_start acc r =
          (acc.1 ++ [rebase info_start r], acc.2 ++ [pyStrip r.text]) := by
        rw [worker_step, if_pos]
        · rfl
        · exact hr
      rw [hstep]
      simp [hr, rebase]
    · have hstep : worker_step info_start acc r = acc := by
        rw [worker_step, if_neg]
        simpa using hr
      rw [hstep]
      simp [hr]

/-- C7: for a chunk with absolute start offset `s`, every segment returned
by `transcribe_chunk_worker` carries the model's chunk-local timestamps
shifted by `+ s`; raw segments whose stripped text is empty are dropped
from both the segment list and the text; the record carries the chunk's
index and the newline-join of the retained (stripped) texts. -/
theorem c7_worker_rebase_and_drop (model_segments : List RawSegment)
    (chunk_info : ChunkInfo) :
    (transcribe_chunk_worker model_segments chunk_info).segments =
      (model_segments.filter (fun r => pyStrip r.text ≠ [])).map
        (rebase chunk_info.start) ∧
    (transcribe_chunk_worker model_segments chunk_info).text =
      pyJoin (str "\n")
        ((model_segments.filter (fun r => pyStrip r.text ≠ [])).map
          (fun r => pyStrip r.text)) ∧
    (transcribe_chunk_worker model_segments chunk_info).chunk_index =
      chunk_info.index ∧
    (∀ sg ∈ (transcribe_chunk_worker model_segments chunk_info).segments,
      sg.text ≠ [] ∧
      ∃ r ∈ model_segments, sg.start = r.start + chunk_info.start ∧
        sg.stop = r.stop + chunk_info.start ∧ sg.text = pyStrip r.text) := by
  have hfold := worker_foldl_spec chunk_info.start model_segments ([], [])
  refine ⟨?_, ?_, rfl, ?_⟩
  · show (model_segments.foldl (worker_step chunk_info.start) ([], [])).1 = _
    rw [hfold]
    simp
  · show pyJoin (str "\n")
        (model_segments.foldl (worker_step chunk_info.start) ([], [])).2 = _
    rw [hfold]
    simp
  · intro sg hsg
    have hseg : (transcribe_chunk_worker model_segments chunk_info).segments =
        (model_segments.filter (fun r => pyStrip r.text ≠ [])).map
          (rebase chunk_info.start) := by
      show (model_segments.foldl (worker_step chunk_info.start) ([], [])).1 = _
      rw [hfold]
      simp
    rw [hseg] at hsg
    obtain ⟨r, hrmem, hr⟩ := List.mem_map.mp hsg
    have hrkept := List.of_mem_filter hrmem
    refine ⟨?_, r, List.mem_of_mem_filter hrmem, ?_, ?_, ?_⟩
    · rw [← hr]
      simpa [rebase] using hrkept
    · rw [← hr]
      rfl
    · rw [← hr]
      rfl
    · rw [← hr]
      rfl

@[simp] lemma update_status_sync_retry_count (r : HearingRow) (f : StatusField)
    (v : PyStr) (e : Option PyStr) :
    (update_status_sync r f v e).retry_count = r.retry_count := by
  cases f <;> rw [update_status_sync] <;> split <;> rfl

@[simp] lemma update_status_sync_last_error (r : HearingRow) (f : StatusField)
    (v : PyStr) (e : Option PyStr) :
    (update_status_sync r f v e).last_error = r.last_error := by
  cases f <;> rw [update_status_sync] <;> split <;> rfl

@[simp] lemma update_status_sync_dl_status (r : HearingRow) (v : PyStr)
    (e : Option PyStr) :
    (update_status_sync r .download_status v e).download_status = v := by
  rw [update_status_sync]
  split <;> rfl

/-- The `error_msg` argument of `_update_status_sync` is dead: the update
it performs is the same whatever message is passed. -/
lemma update_status_sync_ignores_error (r : HearingRow) (f : StatusField)
    (v : PyStr) (e₁ e₂ : Option PyStr) :
    update_status_sync r f v e₁ = update_status_sync r f v e₂ := by
  cases f <;> rfl

lemma download_video_step_fail (attempt : ℕ → Except PyStr ℕ) (jitter : ℕ → ℚ)
    (filename : PyStr) (rc : ℕ) (r : HearingRow) (e : PyStr)
    (hrc : rc < 3) (he : attempt rc = Except.error e) :
    download_video attempt jitter filename rc r =
      ((download_video attempt jitter filename (rc + 1)
          (update_status_sync r .download_status (str "downloading") none)).1,
        (2 ^ rc + jitter rc) ::
          (download_video attempt jitter filename (rc + 1)
            (update_status_sync r .download_status (str "downloading") none)).2) := by
  rw [download_video, he]
  simp [hrc]

lemma download_video_step_fail_last (attempt : ℕ → Except PyStr ℕ)
    (jitter : ℕ → ℚ) (filename : PyStr) (rc : ℕ) (r : HearingRow) (e : PyStr)
    (hrc : ¬ rc < 3) (he : attempt rc = Except.error e) :
    download_video attempt jitter filename rc r =
      (update_status_sync
        (update_status_sync r .download_status (str "downloading") none)
        .download_status (str "failed") (some e), []) := by
  rw [download_video, he]
  simp [hrc]

lemma download_video_step_ok (attempt : ℕ → Except PyStr ℕ) (jitter : ℕ → ℚ)
    (filename : PyStr) (rc : ℕ) (r : HearingRow) (n : ℕ)
    (he : attempt rc = Except.ok n) :
    download_video attempt jitter filename rc r =
      (update_download_complete_sync
        (update_status_sync r .download_status (str "downloading") none)
        filename n, []) := by
  rw [download_video, he]

/-- A run whose first four attempts all fail ends `failed`, leaves
`retry_count` in the row untouched, and waits `1 + j₀`, `2 + j₁`, `4 + j₂`
between attempts. -/
lemma download_video_all_fail (attempt : ℕ → Except PyStr ℕ) (jitter : ℕ → ℚ)
    (filename : PyStr) (r : HearingRow)
    (h : ∀ k, k < 4 → ∃ e, attempt k = Except.error e) :
    (download_video attempt jitter filename 0 r).1.download_status =
      str "failed" ∧
    (download_video attempt jitter filename 0 r).1.retry_count =
      r.retry_count ∧
    (download_video attempt jitter filename 0 r).2 =
      [2 ^ 0 + jitter 0, 2 ^ 1 + jitter 1, 2 ^ 2 + jitter 2] := by
  obtain ⟨e0, h0⟩ := h 0 (by norm_num)
  obtain ⟨e1, h1⟩ := h 1 (by norm_num)
  obtain ⟨e2, h2⟩ := h 2 (by norm_num)
  obtain ⟨e3, h3⟩ := h 3 (by norm_num)
  rw [download_video_step_fail attempt jitter filename 0 _ e0 (by norm_num) h0,
    download_video_step_fail attempt jitter filename 1 _ e1 (by norm_num) h1,
    download_video_step_fail attempt jitter filename 2 _ e2 (by norm_num) h2,
    download_video_step_fail_last attempt jitter filename 3 _ e3 (by norm_num) h3]
  simp

/-- A run whose first three attempts fail and whose fourth succeeds ends
`completed`, with the path and size recorded. -/
lemma download_video_fourth_ok (attempt : ℕ → Except PyStr ℕ) (jitter : ℕ → ℚ)
    (filename : PyStr) (r : HearingRow) (n : ℕ)
    (h : ∀ k, k < 3 → ∃ e, attempt k = Except.error e)
    (h3 : attempt 3 = Except.ok n) :
    (download_video attempt jitter filename 0 r).1.download_status =
      str "completed" ∧
    (download_video attempt jitter filename 0 r).1.video_file_path =
      some filename ∧
    (download_video attempt jitter filename 0 r).1.video_size_bytes = some n := by
  obtain ⟨e0, h0⟩ := h 0 (by norm_num)
  obtain ⟨e1, h1⟩ := h 1 (by norm_num)
  obtain ⟨e2, h2⟩ := h 2 (by norm_num)
  rw [download_video_step_fail attempt jitter filename 0 _ e0 (by norm_num) h0,
    download_video_step_fail attempt jitter filename 1 _ e1 (by norm_num) h1,
    download_video_step_fail attempt jitter filename 2 _ e2 (by norm_num) h2,
    download_video_step_ok attempt jitter filename 3 _ n h3]
  exact ⟨rfl, rfl, rfl⟩

/-- C5 counterexample: a download failing on all four attempts is recorded
`failed`, but the stored `retry_count` is not written by any branch of
the code — starting from a row with `retry_count = 0` it is still `0`
afterwards, not the ceiling `3` the claim states. -/
theorem c5_counterexample :
    (download_video (fun _ => Except.error (str "net")) (fun _ => 0)
        (str "v.mp4") 0
        ⟨str "pending", str "pending", false, false, false, none, none, 0,
          none⟩).1.download_status = str "failed" ∧
    (download_video (fun _ => Except.error (str "net")) (fun _ => 0)
        (str "v.mp4") 0
        ⟨str "pending", str "pending", false, false, false, none, none, 0,
          none⟩).1.retry_count ≠ 3 := by
  obtain ⟨hs, hr, _⟩ := download_video_all_fail
    (fun _ => Except.error (str "net")) (fun _ => 0) (str "v.mp4")
    ⟨str "pending", str "pending", false, false, false, none, none, 0, none⟩
    (fun k _ => ⟨str "net", rfl⟩)
  refine ⟨hs, ?_⟩
  rw [hr]
  norm_num

/-- C5 (amended): a download failing on attempts 1–3 and succeeding on the
4th is recorded `completed` (not `failed`); one failing on all 4 attempts
is recorded `failed` after the in-process retry counter reaches its
ceiling of 3, with the row's stored `retry_count` column left unchanged
(the code never writes it); and the backoff wait before the nth retry is
`2^(n-1)` plus the sampled jitter. -/
theorem c5_amended_retry_outcomes (attempt : ℕ → Except PyStr ℕ)
    (jitter : ℕ → ℚ) (filename : PyStr) (r : HearingRow)
    (hfail : ∀ k, k < 3 → ∃ e, attempt k = Except.error e) :
    ((∃ n, attempt 3 = Except.ok n) →
      (download_video attempt jitter filename 0 r).1.download_status =
        str "completed") ∧
    ((∃ e, attempt 3 = Except.error e) →
      (download_video attempt jitter filename 0 r).1.download_status =
          str "failed" ∧
        (download_video attempt jitter filename 0 r).1.retry_count =
          r.retry_count ∧
        (download_video attempt jitter filename 0 r).2 =
          [2 ^ 0 + jitter 0, 2 ^ 1 + jitter 1, 2 ^ 2 + jitter 2]) := by
  constructor
  · intro ⟨n, hn⟩
    exact (download_video_fourth_ok attempt jitter filename r n hfail hn).1
  · intro ⟨e, he⟩
    refine download_video_all_fail attempt jitter filename r ?_
    intro k hk
    by_cases h3 : k < 3
    · exact hfail k h3
    · have : k = 3 := by omega
      exact ⟨e, this ▸ he⟩

/-- Witness for the amended C5: a concrete oracle failing three times then
succeeding, recorded `completed`. -/
theorem c5_amended_retry_outcomes_witness :
    (∀ k, k < 3 → ∃ e, (fun k => if k < 3 then Except.error (str "net")
        else Except.ok 1000) k = Except.error e) ∧
    (download_video
        (fun k => if k < 3 then Except.error (str "net") else Except.ok 1000)
        (fun _ => 1/2) (str "v.mp4") 0
        ⟨str "pending", str "pending", false, false, false, none, none, 0,
          none⟩).1.download_status = str "completed" := by
  have hf : ∀ k, k < 3 → ∃ e, (fun k => if k < 3 then Except.error (str "net")
      else Except.ok 1000) k = Except.error e := by
    intro k hk
    exact ⟨str "net", by simp [hk]⟩
  refine ⟨hf, ?_⟩
  exact (c5_amended_retry_outcomes _ _ _ _ hf).1 ⟨1000, by norm_num⟩

/-- C6 exhibit: on a transcription failure the phase is marked `failed` and
no chunk files of the job remain, but the error message is *not* captured
in the stored record: `_update_status_sync` receives the message and
ignores it (its generic SQL branch writes only the status field), so the
update is identical with or without the message and no stored field holds
it. -/
theorem c6_error_message_not_persisted :
    (transcribe_video_on_error (str "h1") (str "boom")
        ⟨str "completed", str "processing", true, true, true,
          some (str "h1.mp4"), some 7, 0, none⟩
        [str "h1_full.wav", str "h1_chunk_000.wav", str "h1_chunk_001.wav",
          str "h1.mp4"]).1.transcription_status = str "failed" ∧
    (transcribe_video_on_error (str "h1") (str "boom")
        ⟨str "completed", str "processing", true, true, true,
          some (str "h1.mp4"), some 7, 0, none⟩
        [str "h1_full.wav", str "h1_chunk_000.wav", str "h1_chunk_001.wav",
          str "h1.mp4"]).1.last_error = none ∧
    ((transcribe_video_on_error (str "h1") (str "boom")
        ⟨str "completed", str "processing", true, true, true,
          some (str "h1.mp4"), some 7, 0, none⟩
        [str "h1_full.wav", str "h1_chunk_000.wav", str "h1_chunk_001.wav",
          str "h1.mp4"]).2.filter (fun p => is_chunk_file (str "h1") p)) = [] ∧
    update_status_sync
        ⟨str "completed", str "processing", true, true, true,
          some (str "h1.mp4"), some 7, 0, none⟩
        .transcription_status (str "failed") (some (str "boom")) =
      update_status_sync
        ⟨str "completed", str "processing", true, true, true,
          some (str "h1.mp4"), some 7, 0, none⟩
        .transcription_status (str "failed") none := by
  refine ⟨by decide, by decide, by decide, ?_⟩
  exact update_status_sync_ignores_error _ _ _ _ _

/-- Witness instantiating C7: a model output with one whitespace-only
segment and two real segments, at absolute offset 60. -/
theorem c7_worker_rebase_and_drop_witness :
    (transcribe_chunk_worker
        [⟨0, 2, str " hello "⟩, ⟨2, 3, str "  "⟩, ⟨3, 5, str "world"⟩]
        ⟨60, 2⟩).chunk_index = 2 :=
  (c7_worker_rebase_and_drop
    [⟨0, 2, str " hello "⟩, ⟨2, 3, str "  "⟩, ⟨3, 5, str "world"⟩] ⟨60, 2⟩).2.2.1
